import Mathlib

/-!
Shallow embedding of the phantom-zone boolean evaluator core
(`src/bool/evaluator.rs`, `src/lwe.rs`, `math/src/ring.rs`,
`math/src/distribution.rs`) and proofs about PBS-pipeline claims.

Machine integers of the source (`u64` elements of `Z_Q`) are embedded as
`Nat` together with explicit `% Q` reductions.  The modular backend
(`backend.rs`, not part of the sources) is fixed by the specification to the
mathematical value mod Q, which is what `Zq.*` implement.  `f64` round/floor
expressions of the source are embedded as their exact rational counterparts
(`⌊x⌋` and `⌊x + 1/2⌋`), written with natural-number division.
-/

namespace PhantomZone

/-- Modelled from the spec: §4.1 modular backend (`backend.rs` is not among
the sources).  `add` returns the mathematical value `(a + b) mod Q`. -/
def Zq.add (Q a b : ℕ) : ℕ := (a + b) % Q

/-- Modelled from the spec: §4.1 modular backend.  `mul` returns the
mathematical value `(a * b) mod Q`. -/
def Zq.mul (Q a b : ℕ) : ℕ := (a * b) % Q

/-- Modelled from the spec: §4.1 modular backend.  `neg` returns the
mathematical value `(-a) mod Q`. -/
def Zq.neg (Q a : ℕ) : ℕ := (Q - a % Q) % Q

/-- Modelled from the spec: §4.1 modular backend.  `sub` returns the
mathematical value `(a - b) mod Q`. -/
def Zq.sub (Q a b : ℕ) : ℕ := (a + (Q - b % Q)) % Q

/-- Rounding to the nearest integer, for nonnegative rationals `num/den`:
`⌊num/den + 1/2⌋ = (2*num + den) / (2*den)` in natural division.  This is
the exact-value counterpart of Rust's `f64::round` (half away from zero)
on the nonnegative values that occur in the source. -/
def natRound (num den : ℕ) : ℕ := (2 * num + den) / (2 * den)

/-- `mod_switch_odd` of `src/bool/evaluator.rs` (lines 1688-1692):
`t = floor(v * to_q / from_q)`, result `t + ((t & 1) ^ 1)`. -/
def mod_switch_odd (v fromQ toQ : ℕ) : ℕ :=
  let odd_v := v * toQ / fromQ
  odd_v + ((odd_v &&& 1) ^^^ 1)

/-- `SliceOps::slice_mod_switch_odd` of `math/src/ring.rs` (lines 299-315),
per element: `t = floor(a * to_q / from_q)`; if `t = 0` the rounded value,
otherwise `t | 1`. -/
def slice_mod_switch_odd_elem (v fromQ toQ : ℕ) : ℕ :=
  let t := v * toQ / fromQ
  if t = 0 then natRound (v * toQ) fromQ else t ||| 1

/-- Discrete-log table of `BoolEvaluator::new` (`src/bool/evaluator.rs`
lines 821-831): a vector of length `q`, where for `i < q/2` the entry at
`g^i mod q` is set to `i` and the entry at `q - (g^i mod q)` to `i + q/2`.
`mod_exponent` (from `utils`, not among the sources) is modelled from the
spec as modular exponentiation `g^i mod q`. -/
def g_k_dlog_map (g q : ℕ) : List ℕ :=
  (List.range (q / 2)).foldl
    (fun m i =>
      let v := g ^ i % q
      (m.set v i).set (q - v) (i + q / 2))
    (List.replicate q 0)

/-- `sample_extract` of `src/bool/evaluator.rs` (lines 1695-1720).
The RLWE input is the row pair `(A, B)`; `ring_size` is the row length.
`out[0] = B[index]`; for `i ≤ index`, `out[1+i] = A[index-i]`; for
`index < i < ring_size`, `out[1+i] = -A[ring_size+index-i] mod Q`. -/
def sample_extract (Q : ℕ) (A B : List ℕ) (index : ℕ) : List ℕ :=
  let ringSize := A.length
  B.getD index 0 ::
    (List.range ringSize).map fun i =>
      if i ≤ index then A.getD (index - i) 0
      else Zq.neg Q (A.getD (ringSize + index - i) 0)

section Lemmas

/-- `t + ((t & 1) ^ 1)` keeps odd `t` and bumps even `t` to `t + 1`. -/
lemma mod_switch_odd_eq (v fromQ toQ : ℕ) :
    mod_switch_odd v fromQ toQ =
      (if (v * toQ / fromQ) % 2 = 1 then v * toQ / fromQ
       else v * toQ / fromQ + 1) := by
  unfold mod_switch_odd
  have hand : ∀ t : ℕ, t &&& 1 = t % 2 := fun t => Nat.and_one_is_mod t
  rcases Nat.mod_two_eq_zero_or_one (v * toQ / fromQ) with h | h <;>
    simp [hand, h]

lemma foldl_dlog_set_length (g q : ℕ) (l : List ℕ) (m : List ℕ) :
    (l.foldl (fun m i =>
      let v := g ^ i % q
      (m.set v i).set (q - v) (i + q / 2)) m).length = m.length := by
  induction l generalizing m with
  | nil => rfl
  | cons a t ih => rw [List.foldl_cons]; simp [ih, List.length_set]

lemma g_k_dlog_map_length (g q : ℕ) : (g_k_dlog_map g q).length = q := by
  unfold g_k_dlog_map
  rw [foldl_dlog_set_length]
  exact List.length_replicate q 0

end Lemmas

/-- C3: the odd mod-switch used on the `Q_ks → q` path is
`src/bool/evaluator.rs::mod_switch_odd`, which returns `t + ((t & 1) ^ 1)`;
at `t = 0` it returns `1`, not `round(v·q/Q_ks)` as the claim states.  At
the concrete input `v = 0, Q_ks = 16, q = 4` the code returns `1` while the
claim's expression (which is what `SliceOps::slice_mod_switch_odd` of
`math/src/ring.rs` computes) returns `round(0) = 0`. -/
theorem c3_counterexample_mod_switch_odd_at_zero :
    mod_switch_odd 0 16 4 = 1 ∧ slice_mod_switch_odd_elem 0 16 4 = 0 ∧
      mod_switch_odd 0 16 4 ≠ slice_mod_switch_odd_elem 0 16 4 := by
  refine ⟨by decide, by decide, by decide⟩

/-- C3 (amended): for every `v`, the odd mod-switch of the PBS pipeline
computes `t = ⌊v·to_q/from_q⌋` and returns `t` when `t` is odd and `t + 1`
when `t` is even — in particular it returns `1`, not the rounded value,
when `t = 0`.  (The claim's `t = 0 → round` branch exists only in
`SliceOps::slice_mod_switch_odd` of `math/src/ring.rs`.) -/
theorem c3_mod_switch_odd_forces_odd (v fromQ toQ : ℕ) :
    mod_switch_odd v fromQ toQ =
      (if (v * toQ / fromQ) % 2 = 1 then v * toQ / fromQ
       else v * toQ / fromQ + 1) ∧
    slice_mod_switch_odd_elem v fromQ toQ =
      (if v * toQ / fromQ = 0 then natRound (v * toQ) fromQ
       else v * toQ / fromQ ||| 1) :=
  ⟨mod_switch_odd_eq v fromQ toQ, rfl⟩

/-- C10: for `v < Q_ks` and a power of two `q` with `2 ≤ q ≤ Q_ks`,
`mod_switch_odd v Q_ks q` is an odd integer in `[1, q-1]`; consequently it
is a valid (odd) index into the discrete-log table `g_k_dlog_map`, which
has length `q`. -/
theorem c10_mod_switch_odd_in_range (g v Qks q : ℕ)
    (hv : v < Qks) (hq2 : 2 ≤ q) (hqle : q ≤ Qks) (hpow : ∃ k, q = 2 ^ k) :
    mod_switch_odd v Qks q % 2 = 1 ∧ 1 ≤ mod_switch_odd v Qks q ∧
      mod_switch_odd v Qks q ≤ q - 1 ∧
      mod_switch_odd v Qks q < (g_k_dlog_map g q).length := by
  have hQks : 0 < Qks := lt_of_lt_of_le (by omega) hqle
  have hq0 : 0 < q := by omega
  have ht : v * q / Qks < q :=
    Nat.div_lt_of_lt_mul (mul_lt_mul_of_pos_right hv hq0)
  have hqeven : q % 2 = 0 := by
    obtain ⟨k, rfl⟩ := hpow
    rcases k with _ | k
    · omega
    · simp [Nat.pow_succ, Nat.mul_mod]
  rw [mod_switch_odd_eq, g_k_dlog_map_length]
  generalize hgen : v * q / Qks = t at ht ⊢
  rcases Nat.mod_two_eq_zero_or_one t with h | h
  · -- even t: result t + 1; t ≠ q - 1 since q - 1 is odd
    have hne : ¬(t % 2 = 1) := by omega
    rw [if_neg hne]
    exact ⟨by omega, by omega, by omega, by omega⟩
  · rw [if_pos h]
    exact ⟨h, by omega, by omega, by omega⟩

/-- C3 amendment/C10 instantiation at a concrete input: `v = 5, Q_ks = 16,
q = 8` satisfies every hypothesis, and the switched value is the odd
in-range index `2·(5·8/16)/2+1`. -/
theorem c10_mod_switch_odd_in_range_witness :
    (5 < 16 ∧ 2 ≤ 8 ∧ 8 ≤ 16 ∧ ∃ k, 8 = 2 ^ k) ∧
      (mod_switch_odd 5 16 8 % 2 = 1 ∧ 1 ≤ mod_switch_odd 5 16 8 ∧
        mod_switch_odd 5 16 8 ≤ 8 - 1 ∧
        mod_switch_odd 5 16 8 < (g_k_dlog_map 3 8).length) :=
  ⟨⟨by decide, by decide, by decide, ⟨3, by decide⟩⟩,
    c10_mod_switch_odd_in_range 3 5 16 8 (by decide) (by decide) (by decide)
      ⟨3, by decide⟩⟩

section SampleExtract

/-- The backend negation is the mathematical `-a mod Q`. -/
lemma zq_neg_modeq (Q a : ℕ) (hQ : 0 < Q) :
    ((Zq.neg Q a : ℕ) : ℤ) ≡ -(a : ℤ) [ZMOD (Q : ℤ)] := by
  have h1 : a % Q ≤ Q := Nat.le_of_lt (Nat.mod_lt a hQ)
  have hcast : ((Zq.neg Q a : ℕ) : ℤ) = ((Q : ℤ) - (a : ℤ) % (Q : ℤ)) % (Q : ℤ) := by
    unfold Zq.neg
    push_cast [Nat.cast_sub h1]
    ring_nf
  rw [hcast]
  calc ((Q : ℤ) - (a : ℤ) % (Q : ℤ)) % (Q : ℤ)
      ≡ (Q : ℤ) - (a : ℤ) % (Q : ℤ) [ZMOD (Q : ℤ)] := Int.mod_modEq _ _
    _ ≡ 0 - (a : ℤ) [ZMOD (Q : ℤ)] :=
        Int.ModEq.sub (Int.modEq_zero_iff_dvd.mpr dvd_rfl) (Int.mod_modEq _ _)
    _ = -(a : ℤ) := by ring

lemma sample_extract_getD (Q : ℕ) (A B : List ℕ) (index i : ℕ)
    (hi : i < A.length) :
    (sample_extract Q A B index).getD (1 + i) 0 =
      (if i ≤ index then A.getD (index - i) 0
       else Zq.neg Q (A.getD (A.length + index - i) 0)) := by
  unfold sample_extract
  have : (1 + i) = i + 1 := by omega
  rw [this]
  simp only [List.getD, List.get?_cons_succ]
  rw [List.get?_map, List.get?_range hi]
  rfl

end SampleExtract

/-- C4: sample extraction at index 0 (`sample_extract`,
`src/bool/evaluator.rs` lines 1695-1720) produces an LWE ciphertext of
length `N+1` with `out[0] = B[0]`, `out[1] = A[0]`, and
`out[1+i] = -A[N-i] mod Q` for `0 < i < N`. -/
theorem c4_sample_extract_at_zero (Q N : ℕ) (A B : List ℕ)
    (hA : A.length = N) (hN : 0 < N) (hQ : 0 < Q) :
    (sample_extract Q A B 0).length = N + 1 ∧
    (sample_extract Q A B 0).getD 0 0 = B.getD 0 0 ∧
    (sample_extract Q A B 0).getD 1 0 = A.getD 0 0 ∧
    ∀ i, 0 < i → i < N →
      (sample_extract Q A B 0).getD (1 + i) 0 = Zq.neg Q (A.getD (N - i) 0) ∧
      ((sample_extract Q A B 0).getD (1 + i) 0 : ℤ) ≡
        -(A.getD (N - i) 0 : ℤ) [ZMOD (Q : ℤ)] := by
  refine ⟨?_, rfl, ?_, ?_⟩
  · unfold sample_extract
    simp [hA]
  · have h0 : (sample_extract Q A B 0).getD (1 + 0) 0 = A.getD 0 0 := by
      rw [sample_extract_getD Q A B 0 0 (by omega)]
      simp
    simpa using h0
  · intro i hi0 hiN
    have hval : (sample_extract Q A B 0).getD (1 + i) 0 =
        Zq.neg Q (A.getD (N - i) 0) := by
      rw [sample_extract_getD Q A B 0 i (by omega)]
      rw [if_neg (by omega)]
      rw [hA]
      congr 1
    exact ⟨hval, hval ▸ zq_neg_modeq Q (A.getD (N - i) 0) hQ⟩

/-- C4 at a concrete input: `Q = 17`, `N = 4`, `A = [1,2,3,4]`,
`B = [5,6,7,8]`. -/
theorem c4_sample_extract_at_zero_witness :
    (([1, 2, 3, 4] : List ℕ).length = 4 ∧ 0 < 4 ∧ 0 < 17) ∧
      ((sample_extract 17 [1, 2, 3, 4] [5, 6, 7, 8] 0).length = 4 + 1 ∧
      (sample_extract 17 [1, 2, 3, 4] [5, 6, 7, 8] 0).getD 0 0 =
        ([5, 6, 7, 8] : List ℕ).getD 0 0 ∧
      (sample_extract 17 [1, 2, 3, 4] [5, 6, 7, 8] 0).getD 1 0 =
        ([1, 2, 3, 4] : List ℕ).getD 0 0 ∧
      ∀ i, 0 < i → i < 4 →
        (sample_extract 17 [1, 2, 3, 4] [5, 6, 7, 8] 0).getD (1 + i) 0 =
          Zq.neg 17 (([1, 2, 3, 4] : List ℕ).getD (4 - i) 0) ∧
        ((sample_extract 17 [1, 2, 3, 4] [5, 6, 7, 8] 0).getD (1 + i) 0 : ℤ) ≡
          -(([1, 2, 3, 4] : List ℕ).getD (4 - i) 0 : ℤ) [ZMOD (17 : ℤ)]) :=
  ⟨⟨by decide, by decide, by decide⟩,
    c4_sample_extract_at_zero 17 4 [1, 2, 3, 4] [5, 6, 7, 8]
      (by decide) (by decide) (by decide)⟩

/-- `TryConvertFrom<[i32]>`: a signed secret element is reduced into
`[0, Q)` (ternary `-1` becomes `Q - 1`). -/
def toZq (Q : ℕ) (z : ℤ) : ℕ := (z % (Q : ℤ)).toNat

/-- The inner-product accumulation shared by `encrypt_lwe` and
`decrypt_lwe` (`src/lwe.rs`): `sa` starts at zero and absorbs
`add(mul(aᵢ, sᵢ), sa)` over the zipped iterators. -/
def lweDot (Q : ℕ) (a s : List ℕ) : ℕ :=
  (a.zip s).foldl (fun sa p => Zq.add Q (Zq.mul Q p.1 p.2) sa) 0

/-- Plain (pre-reduction) inner product, used to state what `lweDot`
computes. -/
def dotProd (a s : List ℕ) : ℕ := ((a.zip s).map fun p => p.1 * p.2).sum

/-- `encrypt_lwe` of `src/lwe.rs` (lines 131-163) with the randomness made
explicit: `a` is the uniform fill of `lwe_out[1..]` and `e` the Gaussian
draw; `b = a·s + e + m` in `Z_Q` and the ciphertext is `(b, a)`. -/
def encrypt_lwe (Q m : ℕ) (s : List ℤ) (a : List ℕ) (e : ℕ) : List ℕ :=
  let sm := s.map (toZq Q)
  let sa := lweDot Q a sm
  let b := Zq.add Q (Zq.add Q sa e) m
  b :: a

/-- `decrypt_lwe` of `src/lwe.rs` (lines 165-184): `b - a·s` in `Z_Q`. -/
def decrypt_lwe (Q : ℕ) (ct : List ℕ) (s : List ℤ) : ℕ :=
  let sm := s.map (toZq Q)
  let sa := lweDot Q (ct.drop 1) sm
  Zq.sub Q (ct.getD 0 0) sa

section LweLemmas

lemma lweDot_go_lt (Q : ℕ) (l : List (ℕ × ℕ)) (init : ℕ) (h : init < Q) :
    l.foldl (fun sa p => Zq.add Q (Zq.mul Q p.1 p.2) sa) init < Q := by
  induction l generalizing init with
  | nil => exact h
  | cons p t ih =>
      rw [List.foldl_cons]
      exact ih _ (Nat.mod_lt _ (by omega))

lemma lweDot_lt (Q : ℕ) (a s : List ℕ) (hQ : 0 < Q) : lweDot Q a s < Q :=
  lweDot_go_lt Q _ 0 hQ

lemma lweDot_go_eq (Q : ℕ) (l : List (ℕ × ℕ)) (init : ℕ) (h : init < Q) :
    l.foldl (fun sa p => Zq.add Q (Zq.mul Q p.1 p.2) sa) init =
      ((l.map fun p => p.1 * p.2).sum + init) % Q := by
  induction l generalizing init with
  | nil => simp [Nat.mod_eq_of_lt h]
  | cons p t ih =>
      rw [List.foldl_cons, List.map_cons, List.sum_cons,
        ih (Zq.add Q (Zq.mul Q p.1 p.2) init) (Nat.mod_lt _ (by omega))]
      have inner : Zq.add Q (Zq.mul Q p.1 p.2) init ≡ p.1 * p.2 + init [MOD Q] :=
        (Nat.mod_modEq _ _).trans ((Nat.mod_modEq _ _).add_right init)
      calc ((t.map fun p => p.1 * p.2).sum + Zq.add Q (Zq.mul Q p.1 p.2) init) % Q
          = ((t.map fun p => p.1 * p.2).sum + (p.1 * p.2 + init)) % Q :=
            inner.add_left _
        _ = (p.1 * p.2 + (t.map fun p => p.1 * p.2).sum + init) % Q := by
            congr 1; ring

lemma lweDot_eq (Q : ℕ) (a s : List ℕ) (hQ : 0 < Q) :
    lweDot Q a s = (dotProd a s) % Q := by
  unfold lweDot dotProd
  rw [lweDot_go_eq Q _ 0 hQ, Nat.add_zero]

end LweLemmas

/-- C7: `encrypt_lwe` puts the uniform draw `a` in the tail, sets
`b = ⟨a,s⟩ + e + m mod Q`; `decrypt_lwe` returns `b - ⟨a,s⟩ mod Q`; and
decrypting a fresh encryption of `m` recovers `m + e mod Q`. -/
theorem c7_lwe_encrypt_decrypt (Q m e : ℕ) (s : List ℤ) (a : List ℕ)
    (hQ : 0 < Q) :
    (encrypt_lwe Q m s a e).drop 1 = a ∧
    (encrypt_lwe Q m s a e).getD 0 0 =
      (dotProd a (s.map (toZq Q)) + e + m) % Q ∧
    (∀ ct : List ℕ, decrypt_lwe Q ct s =
      (ct.getD 0 0 + (Q - dotProd (ct.drop 1) (s.map (toZq Q)) % Q)) % Q) ∧
    decrypt_lwe Q (encrypt_lwe Q m s a e) s = (m + e) % Q := by
  have hdotlt : ∀ x : List ℕ, lweDot Q x (s.map (toZq Q)) < Q :=
    fun _ => lweDot_lt Q _ _ hQ
  refine ⟨rfl, ?_, ?_, ?_⟩
  · show Zq.add Q (Zq.add Q (lweDot Q a (s.map (toZq Q))) e) m = _
    unfold Zq.add
    rw [lweDot_eq Q _ _ hQ]
    exact ((Nat.mod_modEq _ _).add_right m).trans
      (((Nat.mod_modEq _ _).add_right e).add_right m)
  · intro ct
    show Zq.sub Q (ct.getD 0 0) (lweDot Q (ct.drop 1) (s.map (toZq Q))) = _
    unfold Zq.sub
    rw [lweDot_eq Q _ _ hQ, Nat.mod_mod_of_dvd _ dvd_rfl]
  · show Zq.sub Q (Zq.add Q (Zq.add Q (lweDot Q a (s.map (toZq Q))) e) m)
      (lweDot Q a (s.map (toZq Q))) = _
    set D := lweDot Q a (s.map (toZq Q)) with hDdef
    have hD : D < Q := hdotlt a
    unfold Zq.sub Zq.add
    rw [Nat.mod_eq_of_lt hD]
    have h1 : ((D + e) % Q + m) % Q + (Q - D) ≡ D + e + m + (Q - D) [MOD Q] :=
      ((Nat.mod_modEq _ _).trans ((Nat.mod_modEq _ _).add_right m)).add_right _
    calc (((D + e) % Q + m) % Q + (Q - D)) % Q
        = (D + e + m + (Q - D)) % Q := h1
      _ = (m + e + Q) % Q := by congr 1; omega
      _ = (m + e) % Q := Nat.add_mod_right _ _

/-- C7 at a concrete input: `Q = 17`, `m = 3`, `e = 2`, `s = [1, -1, 0]`,
`a = [5, 7, 11]`. -/
theorem c7_lwe_encrypt_decrypt_witness :
    (0 < 17) ∧
      ((encrypt_lwe 17 3 [1, -1, 0] [5, 7, 11] 2).drop 1 = [5, 7, 11] ∧
      (encrypt_lwe 17 3 [1, -1, 0] [5, 7, 11] 2).getD 0 0 =
        (dotProd [5, 7, 11] (([1, -1, 0] : List ℤ).map (toZq 17)) + 2 + 3) % 17 ∧
      (∀ ct : List ℕ, decrypt_lwe 17 ct [1, -1, 0] =
        (ct.getD 0 0 +
          (17 - dotProd (ct.drop 1) (([1, -1, 0] : List ℤ).map (toZq 17)) % 17)) % 17) ∧
      decrypt_lwe 17 (encrypt_lwe 17 3 [1, -1, 0] [5, 7, 11] 2) [1, -1, 0] =
        (3 + 2) % 17) :=
  ⟨by decide, c7_lwe_encrypt_decrypt 17 3 2 [1, -1, 0] [5, 7, 11] (by decide)⟩

/-- `rlweq_by8` constant of `BoolEvaluator::new`: `round(Q / 8)`. -/
def rlweq_by8 (Q : ℕ) : ℕ := natRound Q 8

/-- `rlwe_qby4` constant of `BoolEvaluator::new`: `round(Q / 4)`. -/
def rlwe_qby4 (Q : ℕ) : ℕ := natRound Q 4

/-- The decode step shared by `BoolEvaluator::sk_decrypt` (lines 1316-1339)
and `multi_party_decrypt` (lines 1202-1227):
`m = round((encoded + rlweq_by8) * 4 / Q) % 4`; `0 → false`, `1 → true`,
any other value panics (embedded as `none`). -/
def bool_decode (Q encoded : ℕ) : Option Bool :=
  let m := natRound ((encoded + rlweq_by8 Q) * 4) Q % 4
  if m = 0 then some false else if m = 1 then some true else none

/-- `BoolEvaluator::sk_decrypt`: decode `decrypt_lwe(ct; sk_rlwe)`. -/
def sk_decrypt (Q : ℕ) (ct : List ℕ) (s : List ℤ) : Option Bool :=
  bool_decode Q (decrypt_lwe Q ct s)

/-- `BoolEvaluator::multi_party_decrypt`: sum the decryption shares, add
the ciphertext's `b` term, then decode. -/
def multi_party_decrypt (Q : ℕ) (shares : List ℕ) (ct : List ℕ) : Option Bool :=
  let sum_a := shares.foldl (fun acc sh => Zq.add Q acc sh) 0
  bool_decode Q (Zq.add Q (ct.getD 0 0) sum_a)

/-- The claim's decode ("round the recovered encoded plaintext to the
nearest of {0, Q/4, Q/2, 3Q/4}"), written from the spec's words for
comparison: `m = round(encoded * 4 / Q) % 4`; `0 → false`, `1 → true`,
else error. -/
def bool_decode_spec (Q encoded : ℕ) : Option Bool :=
  let m := natRound (encoded * 4) Q % 4
  if m = 0 then some false else if m = 1 then some true else none

section DecodeLemmas

lemma natRound_eq_floor (num den : ℕ) (h : 0 < den) :
    (natRound num den : ℤ) = ⌊(num : ℚ) / den + 1 / 2⌋ := by
  have hden : (den : ℚ) ≠ 0 := by positivity
  have hq : (num : ℚ) / den + 1 / 2 = ((2 * num + den : ℕ) : ℚ) / ((2 * den : ℕ) : ℚ) := by
    push_cast
    field_simp
    ring
  rw [hq, Rat.floor_natCast_div_natCast]
  unfold natRound
  push_cast
  rfl

lemma foldl_zq_add_eq (Q : ℕ) (l : List ℕ) (init : ℕ) (h : init < Q) :
    l.foldl (fun acc sh => Zq.add Q acc sh) init = (init + l.sum) % Q := by
  induction l generalizing init with
  | nil => simp [Nat.mod_eq_of_lt h]
  | cons x t ih =>
      rw [List.foldl_cons, ih (Zq.add Q init x) (Nat.mod_lt _ (by omega)),
        List.sum_cons]
      calc (Zq.add Q init x + t.sum) % Q
          = (init + x + t.sum) % Q := (Nat.mod_modEq _ _).add_right _
        _ = (init + (x + t.sum)) % Q := by rw [Nat.add_assoc]

end DecodeLemmas

/-- C5 counterexample: at `Q = 64` and recovered encoded plaintext `4`
(e.g. the trivial ciphertext `[4]` under the empty secret), the code
decodes to `true` (it rounds `encoded + Q/8`), while rounding the encoded
plaintext itself to the nearest of `{0, Q/4, Q/2, 3Q/4}` as the claim
states gives `0`, i.e. `false`. -/
theorem c5_counterexample_bool_decrypt :
    sk_decrypt 64 [4] [] = some true ∧
      decrypt_lwe 64 [4] [] = 4 ∧
      bool_decode_spec 64 (decrypt_lwe 64 [4] []) = some false := by
  refine ⟨by decide, by decide, by decide⟩

/-- C5 (amended): single-party decryption decodes `decrypt_lwe`, and
multi-party decryption first sums all shares with the ciphertext's `b`
term mod Q; the shared decode rounds `encoded + Q/8` (not `encoded`) to
the nearest multiple of `Q/4`, i.e. computes
`k = round((encoded + round(Q/8)) * 4 / Q) mod 4`, and returns `false`
exactly for `k = 0`, `true` exactly for `k = 1`, and an error (panic) for
every other `k`. -/
theorem c5_bool_decrypt_amended (Q : ℕ) (hQ : 0 < Q) (shares ct : List ℕ)
    (s : List ℤ) :
    multi_party_decrypt Q shares ct =
      bool_decode Q ((ct.getD 0 0 + shares.sum) % Q) ∧
    sk_decrypt Q ct s = bool_decode Q (decrypt_lwe Q ct s) ∧
    ∀ encoded : ℕ,
      bool_decode Q encoded =
        (if (⌊((encoded : ℚ) + (rlweq_by8 Q : ℚ)) * 4 / Q + 1 / 2⌋ % 4 = 0)
         then some false
         else if (⌊((encoded : ℚ) + (rlweq_by8 Q : ℚ)) * 4 / Q + 1 / 2⌋ % 4 = 1)
         then some true
         else none) := by
  refine ⟨?_, rfl, ?_⟩
  · show bool_decode Q (Zq.add Q (ct.getD 0 0)
      (shares.foldl (fun acc sh => Zq.add Q acc sh) 0)) = _
    have harg : Zq.add Q (ct.getD 0 0)
        (shares.foldl (fun acc sh => Zq.add Q acc sh) 0) =
        (ct.getD 0 0 + shares.sum) % Q := by
      rw [foldl_zq_add_eq Q shares 0 hQ, Nat.zero_add]
      unfold Zq.add
      exact Nat.ModEq.add_left _ (Nat.mod_modEq _ _)
    rw [harg]
  · intro encoded
    have hfl : (natRound ((encoded + rlweq_by8 Q) * 4) Q : ℤ) =
        ⌊((encoded : ℚ) + (rlweq_by8 Q : ℚ)) * 4 / Q + 1 / 2⌋ := by
      rw [natRound_eq_floor _ _ hQ]
      congr 2
      push_cast
      ring
    unfold bool_decode
    rw [← hfl]
    have h0 : ((natRound ((encoded + rlweq_by8 Q) * 4) Q : ℤ) % 4 = 0) ↔
        (natRound ((encoded + rlweq_by8 Q) * 4) Q % 4 = 0) := by omega
    have h1 : ((natRound ((encoded + rlweq_by8 Q) * 4) Q : ℤ) % 4 = 1) ↔
        (natRound ((encoded + rlweq_by8 Q) * 4) Q % 4 = 1) := by omega
    simp only [h0, h1]

/-- C5 amendment at a concrete input: `Q = 64`, shares `[3, 5]`,
ciphertext `[7, 9]`, secret `[2]`. -/
theorem c5_bool_decrypt_amended_witness :
    (0 < 64) ∧
      (multi_party_decrypt 64 [3, 5] [7, 9] =
        bool_decode 64 ((([7, 9] : List ℕ).getD 0 0 + ([3, 5] : List ℕ).sum) % 64) ∧
      sk_decrypt 64 [7, 9] [2] = bool_decode 64 (decrypt_lwe 64 [7, 9] [2]) ∧
      ∀ encoded : ℕ,
        bool_decode 64 encoded =
          (if (⌊((encoded : ℚ) + (rlweq_by8 64 : ℚ)) * 4 / 64 + 1 / 2⌋ % 4 = 0)
           then some false
           else if (⌊((encoded : ℚ) + (rlweq_by8 64 : ℚ)) * 4 / 64 + 1 / 2⌋ % 4 = 1)
           then some true
           else none)) :=
  ⟨by decide, c5_bool_decrypt_amended 64 (by decide) [3, 5] [7, 9] [2]⟩

/-- The fields of `BoolParameters` consumed by the embedded operations
(`src/bool/parameters.rs` is referenced by the sources but not among
them; the field list is taken from the accessors used in
`src/bool/evaluator.rs`). -/
structure BoolParameters where
  rlwe_q : ℕ
  lwe_q : ℕ
  br_q : ℕ
  rlwe_n : ℕ
  lwe_n : ℕ
  g : ℕ
  auto_decomposition_count : ℕ
  rlwe_rgsw_decomposition_count : ℕ × ℕ
  rgsw_rgsw_decomposition_count : ℕ × ℕ
  lwe_decomposition_count : ℕ
  deriving DecidableEq

/-- `CommonReferenceSeededCollectivePublicKeyShare` of
`src/bool/evaluator.rs` (lines 178-182). -/
structure CollectivePublicKeyShare (S : Type) where
  share : List ℕ
  cr_seed : S
  parameters : BoolParameters

/-- `PublicKey::from(&[CommonReferenceSeededCollectivePublicKeyShare])`
(`src/bool/evaluator.rs` lines 206-237).  `sampleA` abstracts the seeded
CSPRNG uniform fill of row A (`DefaultSecureRng::new_seeded(seed)` +
`random_fill`); being a function, it is deterministic in the seed.  The
`assert!` failures (empty input, cr_seed or parameter mismatch) are
embedded as `none`. -/
def public_key_from {S : Type} [DecidableEq S]
    (sampleA : S → ℕ → ℕ → List ℕ)
    (shares : List (CollectivePublicKeyShare S)) :
    Option (List ℕ × List ℕ) :=
  match shares with
  | [] => none
  | s0 :: _ =>
      let parameters := s0.parameters
      let seed := s0.cr_seed
      let A := sampleA seed parameters.rlwe_q parameters.rlwe_n
      if ∀ si ∈ shares, si.cr_seed = seed ∧ si.parameters = parameters then
        some (A,
          shares.foldl
            (fun acc si =>
              List.zipWith (fun u v => Zq.add parameters.rlwe_q u v) acc si.share)
            (List.replicate parameters.rlwe_n 0))
      else none

section PublicKeyLemmas

lemma foldl_zipWith_add_length (Q : ℕ) (l : List (List ℕ)) (acc : List ℕ)
    (hl : ∀ x ∈ l, x.length = acc.length) :
    (l.foldl (fun a x => List.zipWith (fun u v => Zq.add Q u v) a x) acc).length
      = acc.length := by
  induction l generalizing acc with
  | nil => rfl
  | cons x t ih =>
      rw [List.foldl_cons]
      have hx : x.length = acc.length := hl x (by simp)
      have hz : (List.zipWith (fun u v => Zq.add Q u v) acc x).length = acc.length := by
        rw [List.length_zipWith, hx]
        omega
      rw [ih _ (by intro y hy; rw [hz]; exact hl y (by simp [hy])), hz]

lemma foldl_zipWith_add_getD (Q : ℕ) (l : List (List ℕ)) (acc : List ℕ)
    (j : ℕ) (hj : j < acc.length)
    (hl : ∀ x ∈ l, x.length = acc.length)
    (hacc : acc.getD j 0 < Q) :
    (l.foldl (fun a x => List.zipWith (fun u v => Zq.add Q u v) a x) acc).getD j 0
      = (acc.getD j 0 + (l.map fun x => x.getD j 0).sum) % Q := by
  induction l generalizing acc with
  | nil =>
      rw [List.foldl_nil, List.map_nil, List.sum_nil, Nat.add_zero,
        Nat.mod_eq_of_lt hacc]
  | cons x t ih =>
      rw [List.foldl_cons, List.map_cons, List.sum_cons]
      have hx : x.length = acc.length := hl x (by simp)
      have hz : (List.zipWith (fun u v => Zq.add Q u v) acc x).length = acc.length := by
        rw [List.length_zipWith, hx]; omega
      have hQ : 0 < Q := by omega
      have hzj : (List.zipWith (fun u v => Zq.add Q u v) acc x).getD j 0 =
          Zq.add Q (acc.getD j 0) (x.getD j 0) := by
        rw [List.getD_eq_getElem _ _ (by omega : j < (List.zipWith
          (fun u v => Zq.add Q u v) acc x).length)]
        rw [List.getElem_zipWith]
        rw [List.getD_eq_getElem _ _ hj, List.getD_eq_getElem _ _ (by omega : j < x.length)]
      rw [ih _ (by omega) (by intro y hy; rw [hz]; exact hl y (by simp [hy]))
        (by rw [hzj]; exact Nat.mod_lt _ hQ)]
      rw [hzj]
      calc (Zq.add Q (acc.getD j 0) (x.getD j 0) + (t.map fun x => x.getD j 0).sum) % Q
          = (acc.getD j 0 + x.getD j 0 + (t.map fun x => x.getD j 0).sum) % Q :=
            (Nat.mod_modEq _ _).add_right _
        _ = (acc.getD j 0 + (x.getD j 0 + (t.map fun x => x.getD j 0).sum)) % Q := by
            rw [Nat.add_assoc]

end PublicKeyLemmas

/-- C6: aggregating a non-empty list of collective public-key shares
samples row A from the first share's seed, sets row B to the sum mod Q of
all shares' B rows, and fails (assertion) whenever some share's `cr_seed`
or `parameters` differ from the first share's. -/
theorem c6_public_key_from_shares {S : Type} [DecidableEq S]
    (sampleA : S → ℕ → ℕ → List ℕ)
    (s0 : CollectivePublicKeyShare S) (rest : List (CollectivePublicKeyShare S))
    (hQ : 0 < s0.parameters.rlwe_q)
    (hlen : ∀ si ∈ s0 :: rest, si.share.length = s0.parameters.rlwe_n) :
    ((∀ si ∈ s0 :: rest, si.cr_seed = s0.cr_seed ∧ si.parameters = s0.parameters) →
      ∃ B, public_key_from sampleA (s0 :: rest) =
          some (sampleA s0.cr_seed s0.parameters.rlwe_q s0.parameters.rlwe_n, B) ∧
        B.length = s0.parameters.rlwe_n ∧
        ∀ j, j < s0.parameters.rlwe_n →
          B.getD j 0 =
            (((s0 :: rest).map fun si => si.share.getD j 0).sum) % s0.parameters.rlwe_q) ∧
    ((¬ ∀ si ∈ s0 :: rest, si.cr_seed = s0.cr_seed ∧ si.parameters = s0.parameters) →
      public_key_from sampleA (s0 :: rest) = none) := by
  constructor
  · intro hall
    refine ⟨(s0 :: rest).foldl
      (fun acc si =>
        List.zipWith (fun u v => Zq.add s0.parameters.rlwe_q u v) acc si.share)
      (List.replicate s0.parameters.rlwe_n 0), ?_, ?_, ?_⟩
    · dsimp only [public_key_from]
      rw [if_pos hall]
    · rw [show ((s0 :: rest).foldl (fun acc si => List.zipWith
        (fun u v => Zq.add s0.parameters.rlwe_q u v) acc si.share)
        (List.replicate s0.parameters.rlwe_n 0)) =
        (((s0 :: rest).map fun si => si.share).foldl
          (fun a x => List.zipWith (fun u v => Zq.add s0.parameters.rlwe_q u v) a x)
          (List.replicate s0.parameters.rlwe_n 0)) from by
          rw [List.foldl_map]]
      rw [foldl_zipWith_add_length]
      · simp
      · intro x hx
        simp only [List.mem_map] at hx
        obtain ⟨si, hsi, rfl⟩ := hx
        simp [hlen si hsi]
    · intro j hj
      rw [show ((s0 :: rest).foldl (fun acc si => List.zipWith
        (fun u v => Zq.add s0.parameters.rlwe_q u v) acc si.share)
        (List.replicate s0.parameters.rlwe_n 0)) =
        (((s0 :: rest).map fun si => si.share).foldl
          (fun a x => List.zipWith (fun u v => Zq.add s0.parameters.rlwe_q u v) a x)
          (List.replicate s0.parameters.rlwe_n 0)) from by
          rw [List.foldl_map]]
      rw [foldl_zipWith_add_getD]
      · rw [List.getD_eq_getElem _ _ (by simpa using hj), List.getElem_replicate,
          List.map_map, Nat.zero_add]
        rfl
      · simpa using hj
      · intro x hx
        simp only [List.mem_map] at hx
        obtain ⟨si, hsi, rfl⟩ := hx
        simp [hlen si hsi]
      · rw [List.getD_eq_getElem _ _ (by simpa using hj), List.getElem_replicate]
        omega
  · intro hnall
    dsimp only [public_key_from]
    rw [if_neg hnall]

/-- A small concrete parameter set used to instantiate theorems. -/
def exampleParams : BoolParameters :=
  ⟨5, 3, 4, 2, 2, 3, 1, (1, 1), (1, 1), 1⟩

/-- C6 at a concrete input: two shares over `rlwe_q = 5`, `rlwe_n = 2`,
matching seeds and parameters. -/
theorem c6_public_key_from_shares_witness :
    ((∀ si ∈ [(⟨[1, 2], 7, exampleParams⟩ : CollectivePublicKeyShare ℕ),
        ⟨[3, 4], 7, exampleParams⟩],
        si.cr_seed = (7 : ℕ) ∧ si.parameters = exampleParams) →
      ∃ B, public_key_from (fun s q n => List.replicate n (s % q))
          [(⟨[1, 2], 7, exampleParams⟩ : CollectivePublicKeyShare ℕ),
            ⟨[3, 4], 7, exampleParams⟩] =
          some (List.replicate 2 (7 % 5), B) ∧
        B.length = 2 ∧
        ∀ j, j < 2 →
          B.getD j 0 =
            ((([(⟨[1, 2], 7, exampleParams⟩ : CollectivePublicKeyShare ℕ),
              ⟨[3, 4], 7, exampleParams⟩]).map fun si => si.share.getD j 0).sum) % 5) ∧
    ((¬ ∀ si ∈ [(⟨[1, 2], 7, exampleParams⟩ : CollectivePublicKeyShare ℕ),
        ⟨[3, 4], 7, exampleParams⟩],
        si.cr_seed = (7 : ℕ) ∧ si.parameters = exampleParams) →
      public_key_from (fun s q n => List.replicate n (s % q))
        [(⟨[1, 2], 7, exampleParams⟩ : CollectivePublicKeyShare ℕ),
          ⟨[3, 4], 7, exampleParams⟩] = none) :=
  c6_public_key_from_shares (fun s q n => List.replicate n (s % q))
    ⟨[1, 2], 7, exampleParams⟩ [⟨[3, 4], 7, exampleParams⟩]
    (by decide) (by decide)

/-- `ScratchMemory` of `src/bool/evaluator.rs` (lines 57-88). -/
structure ScratchMemory where
  lwe_vector : List ℕ
  decomposition_matrix : List (List ℕ)

/-- `ScratchMemory::new` (lines 69-88): a zeroed LWE vector of length
`lwe_n + 1`, and a zeroed polynomial matrix with
`max(auto_d, max(rlrg_dA, rlrg_dB)) + 2` rows of length `rlwe_n`
("max decomposition count + space for temporary RLWE"). -/
def ScratchMemory.new (p : BoolParameters) : ScratchMemory :=
  let lwe_vector := List.replicate (p.lwe_n + 1) 0
  let d := max p.auto_decomposition_count
    (max p.rlwe_rgsw_decomposition_count.1 p.rlwe_rgsw_decomposition_count.2) + 2
  ⟨lwe_vector, List.replicate d (List.replicate p.rlwe_n 0)⟩

/-- The scratch matrix allocated inside
`aggregate_multi_party_server_key_shares` (lines 310-317):
`max(dA', dB') + (2·dA' + 2·dB')` rows of length `rlwe_n`, with
`(dA', dB')` the rgsw×rgsw decomposition counts. -/
def aggregation_scratch_matrix (p : BoolParameters) : List (List ℕ) :=
  List.replicate
    (max p.rgsw_rgsw_decomposition_count.1 p.rgsw_rgsw_decomposition_count.2
      + (p.rgsw_rgsw_decomposition_count.1 * 2
        + p.rgsw_rgsw_decomposition_count.2 * 2))
    (List.replicate p.rlwe_n 0)

/-- A parameter set with `d_auto = 3`, `(dA, dB) = (2, 1)`, `N = 16`,
`n = 4`, used to refute the claimed row count. -/
def scratchExampleParams : BoolParameters :=
  ⟨65, 17, 8, 16, 4, 3, 3, (2, 1), (2, 2), 2⟩

/-- C8 counterexample: at a parameter set with `d_auto = 3`,
`(dA, dB) = (2, 1)`, the evaluator's scratch matrix
(`ScratchMemory::new`) has `max(3, 2, 1) + 2 = 5` rows, not
`max(3, 2, 1) + (2·2 + 2·1) = 9` as the claim states. -/
theorem c8_counterexample_scratch_rows :
    (ScratchMemory.new scratchExampleParams).decomposition_matrix.length = 5 ∧
      max scratchExampleParams.auto_decomposition_count
        (max scratchExampleParams.rlwe_rgsw_decomposition_count.1
          scratchExampleParams.rlwe_rgsw_decomposition_count.2)
        + (2 * scratchExampleParams.rlwe_rgsw_decomposition_count.1
          + 2 * scratchExampleParams.rlwe_rgsw_decomposition_count.2) = 9 ∧
      (ScratchMemory.new scratchExampleParams).decomposition_matrix.length ≠ 9 :=
  ⟨by decide, by decide, by decide⟩

/-- C8 (amended): at evaluator construction the scratch LWE vector has
length `n + 1` and the scratch polynomial matrix has
`max(d_auto, dA, dB) + 2` rows, each of length `N`; the
`max + (2·dA' + 2·dB')` row count of the claim belongs to the scratch
matrix that `aggregate_multi_party_server_key_shares` allocates with the
rgsw×rgsw decomposition counts. -/
theorem c8_scratch_memory_sizes (p : BoolParameters) :
    (ScratchMemory.new p).lwe_vector.length = p.lwe_n + 1 ∧
    (ScratchMemory.new p).decomposition_matrix.length =
      max p.auto_decomposition_count
        (max p.rlwe_rgsw_decomposition_count.1
          p.rlwe_rgsw_decomposition_count.2) + 2 ∧
    (∀ row ∈ (ScratchMemory.new p).decomposition_matrix,
      row.length = p.rlwe_n) ∧
    (aggregation_scratch_matrix p).length =
      max p.rgsw_rgsw_decomposition_count.1 p.rgsw_rgsw_decomposition_count.2
        + (p.rgsw_rgsw_decomposition_count.1 * 2
          + p.rgsw_rgsw_decomposition_count.2 * 2) := by
  refine ⟨by simp [ScratchMemory.new], by simp [ScratchMemory.new], ?_,
    by simp [aggregation_scratch_matrix]⟩
  intro row hrow
  unfold ScratchMemory.new at hrow
  simp only at hrow
  rw [List.eq_of_mem_replicate hrow]
  exact List.length_replicate _ _

/-- The index-collection loop of `Ternary::sample_map_into`
(`math/src/distribution.rs` lines 127-142): draws from the uniform index
stream are inserted into a (bit)set until the count of distinct inserted
indices reaches `h`; the loop breaks at that point.  The draw stream is
explicit; an exhausted stream (the loop never reaching `h`, i.e.
non-termination) is `none`.  The returned list records the distinct
inserted indices in insertion order. -/
def chooseIndicesGo (h : ℕ) (chosen : List ℕ) : List ℕ → Option (List ℕ)
  | [] => none
  | d :: rest =>
      let chosen' := if d ∈ chosen then chosen else chosen ++ [d]
      if chosen'.length = h then some chosen' else chooseIndicesGo h chosen' rest

/-- `Ternary::sample_vec` (`math/src/distribution.rs` lines 123-152) with
the randomness explicit: `draws` is the `Uniform::new(0, out.len())`
stream and `signs` the bit stream obtained from `rng.next_u64()`.  The
output starts as zeros; the chosen indices, scanned in ascending bitset
order, are assigned `+1`/`-1` by the sign bits.  The
`assert_ne!(hw, 0)` / `assert!(hw <= out.len())` failures are `none`. -/
def ternary_sample_vec (n h : ℕ) (draws : List ℕ) (signs : ℕ → Bool) :
    Option (List ℤ) :=
  if h = 0 ∨ n < h then none
  else
    match chooseIndicesGo h [] draws with
    | none => none
    | some chosen =>
        let indices := (List.range n).filter fun i => decide (i ∈ chosen)
        some (indices.enum.foldl
          (fun out ki => out.set ki.2 (if signs ki.1 then 1 else -1))
          (List.replicate n (0 : ℤ)))

section TernaryLemmas

lemma chooseGo_spec (h : ℕ) :
    ∀ (draws chosen out : List ℕ),
      chooseIndicesGo h chosen draws = some out → chosen.Nodup →
      out.Nodup ∧ out.length = h ∧ ∀ x ∈ out, x ∈ chosen ∨ x ∈ draws := by
  intro draws
  induction draws with
  | nil => intro chosen out heq; simp [chooseIndicesGo] at heq
  | cons d rest ih =>
      intro chosen out heq hnd
      unfold chooseIndicesGo at heq
      by_cases hd : d ∈ chosen
      · simp only [hd, if_true] at heq
        by_cases hlen : chosen.length = h
        · rw [if_pos hlen] at heq
          obtain rfl : chosen = out := by injection heq
          exact ⟨hnd, hlen, fun x hx => Or.inl hx⟩
        · rw [if_neg hlen] at heq
          obtain ⟨h1, h2, h3⟩ := ih chosen out heq hnd
          exact ⟨h1, h2, fun x hx => (h3 x hx).imp_right (by simp +contextual)⟩
      · simp only [hd, if_false] at heq
        have hnd' : (chosen ++ [d]).Nodup := by
          rw [List.nodup_append]
          exact ⟨hnd, List.nodup_singleton d,
            fun x hx hmem => hd ((List.mem_singleton.mp hmem) ▸ hx)⟩
        by_cases hlen : (chosen ++ [d]).length = h
        · rw [if_pos hlen] at heq
          obtain rfl : chosen ++ [d] = out := by injection heq
          refine ⟨hnd', hlen, fun x hx => ?_⟩
          rcases List.mem_append.mp hx with hx | hx
          · exact Or.inl hx
          · exact Or.inr (by simpa using Or.inl (by simpa using hx))
        · rw [if_neg hlen] at heq
          obtain ⟨h1, h2, h3⟩ := ih (chosen ++ [d]) out heq hnd'
          refine ⟨h1, h2, fun x hx => ?_⟩
          rcases h3 x hx with hx' | hx'
          · rcases List.mem_append.mp hx' with hx'' | hx''
            · exact Or.inl hx''
            · exact Or.inr (by simpa using Or.inl (by simpa using hx''))
          · exact Or.inr (by simp [hx'])

lemma chooseGo_some (h : ℕ) :
    ∀ (draws chosen : List ℕ),
      chosen.Nodup → chosen.length < h →
      h ≤ (chosen.toFinset ∪ draws.toFinset).card →
      ∃ out, chooseIndicesGo h chosen draws = some out := by
  intro draws
  induction draws with
  | nil =>
      intro chosen hnd hlt hcard
      exfalso
      rw [List.toFinset_nil, Finset.union_empty,
        List.toFinset_card_of_nodup hnd] at hcard
      omega
  | cons d rest ih =>
      intro chosen hnd hlt hcard
      unfold chooseIndicesGo
      by_cases hd : d ∈ chosen
      · simp only [hd, if_true]
        rw [if_neg (by omega)]
        refine ih chosen hnd hlt ?_
        have : chosen.toFinset ∪ (d :: rest).toFinset =
            chosen.toFinset ∪ rest.toFinset := by
          rw [List.toFinset_cons, Finset.union_insert,
            Finset.insert_eq_self.mpr
              (Finset.mem_union_left _ (List.mem_toFinset.mpr hd))]
        rwa [this] at hcard
      · simp only [hd, if_false]
        have hnd' : (chosen ++ [d]).Nodup := by
          rw [List.nodup_append]
          exact ⟨hnd, List.nodup_singleton d,
            fun x hx hmem => hd ((List.mem_singleton.mp hmem) ▸ hx)⟩
        by_cases hlen : (chosen ++ [d]).length = h
        · rw [if_pos hlen]
          exact ⟨chosen ++ [d], rfl⟩
        · rw [if_neg hlen]
          refine ih (chosen ++ [d]) hnd' ?_ ?_
          · have := List.length_append chosen [d]
            simp only [List.length_singleton] at this
            omega
          · have : (chosen ++ [d]).toFinset ∪ rest.toFinset =
                chosen.toFinset ∪ (d :: rest).toFinset := by
              ext x
              simp only [List.toFinset_append, List.toFinset_cons,
                Finset.mem_union, Finset.mem_insert, List.mem_toFinset]
              tauto
            rwa [this]

lemma foldl_set_pairs_length (f : ℕ → ℤ) (ps : List (ℕ × ℕ)) :
    ∀ out : List ℤ,
      (ps.foldl (fun o p => o.set p.2 (f p.1)) out).length = out.length := by
  induction ps with
  | nil => intro out; rfl
  | cons p t ih =>
      intro out
      rw [List.foldl_cons, ih, List.length_set]

lemma foldl_set_pairs_getD_not_mem (f : ℕ → ℤ) (ps : List (ℕ × ℕ)) :
    ∀ (out : List ℤ) (j : ℕ), j ∉ ps.map Prod.snd → j < out.length →
      (ps.foldl (fun o p => o.set p.2 (f p.1)) out).getD j 0 = out.getD j 0 := by
  induction ps with
  | nil => intro out j _ _; rfl
  | cons p t ih =>
      intro out j hj hlt
      rw [List.map_cons, List.mem_cons, not_or] at hj
      rw [List.foldl_cons,
        ih _ j hj.2 (by rw [List.length_set]; exact hlt),
        List.getD_eq_getElem _ _ (by rw [List.length_set]; exact hlt),
        List.getD_eq_getElem _ _ hlt]
      have hne : p.2 ≠ j := fun e => hj.1 e.symm
      exact List.getElem_set_ne hne (by rw [List.length_set]; exact hlt)

lemma foldl_set_pairs_getD_mem (f : ℕ → ℤ) (ps : List (ℕ × ℕ)) :
    ∀ (out : List ℤ) (j : ℕ), (ps.map Prod.snd).Nodup →
      j ∈ ps.map Prod.snd → j < out.length →
      ∃ k, (ps.foldl (fun o p => o.set p.2 (f p.1)) out).getD j 0 = f k := by
  induction ps with
  | nil => intro out j _ hj _; simp at hj
  | cons p t ih =>
      intro out j hnd hj hlt
      rw [List.map_cons, List.nodup_cons] at hnd
      rw [List.map_cons] at hj
      rw [List.foldl_cons]
      rcases List.mem_cons.mp hj with hj' | hj'
      · subst hj'
        refine ⟨p.1, ?_⟩
        rw [foldl_set_pairs_getD_not_mem f t _ p.2 hnd.1
          (by rw [List.length_set]; exact hlt)]
        rw [List.getD_eq_getElem _ _ (by rw [List.length_set]; exact hlt)]
        exact List.getElem_set_self (by simpa using hlt)
      · exact ih _ j hnd.2 hj' (by rw [List.length_set]; exact hlt)

end TernaryLemmas

/-- C9: for `1 ≤ h ≤ n`, a draw stream containing at least `h` distinct
indices (all `< n`), and any sign stream, `Ternary(h).sample_vec(n)`
terminates and yields exactly `h` nonzero entries, each `+1` or `-1`, all
other entries `0`; it fails (assertion) whenever `h = 0` or `h > n`. -/
theorem c9_ternary_sample (n h : ℕ) (draws : List ℕ) (signs : ℕ → Bool)
    (hh : 1 ≤ h) (hn : h ≤ n) (hdr : ∀ d ∈ draws, d < n)
    (hdist : h ≤ draws.toFinset.card) :
    (∃ out, ternary_sample_vec n h draws signs = some out ∧
      out.length = n ∧
      ((List.range n).filter fun j => decide (out.getD j 0 ≠ 0)).length = h ∧
      ∀ j, j < n → out.getD j 0 = 0 ∨ out.getD j 0 = 1 ∨ out.getD j 0 = -1) ∧
    ∀ h', h' = 0 ∨ n < h' → ternary_sample_vec n h' draws signs = none := by
  constructor
  · obtain ⟨chosen, hch⟩ := chooseGo_some h draws [] List.nodup_nil
      (by simp only [List.length_nil]; omega) (by simpa using hdist)
    obtain ⟨hnd, hlen, hsub⟩ := chooseGo_spec h draws [] chosen hch List.nodup_nil
    have hchlt : ∀ x ∈ chosen, x < n := fun x hx =>
      hdr x ((hsub x hx).resolve_left (by simp))
    set indices := (List.range n).filter (fun i => decide (i ∈ chosen)) with hidx
    have hind_nd : indices.Nodup := (List.nodup_range n).filter _
    have hind_mem : ∀ j, j ∈ indices ↔ j ∈ chosen := by
      intro j
      rw [hidx, List.mem_filter, List.mem_range]
      constructor
      · rintro ⟨_, hj⟩
        exact of_decide_eq_true hj
      · intro hj
        exact ⟨hchlt j hj, decide_eq_true hj⟩
    have hind_len : indices.length = h := by
      rw [← List.toFinset_card_of_nodup hind_nd,
        show indices.toFinset = chosen.toFinset by
          ext x; simp only [List.mem_toFinset]; exact hind_mem x,
        List.toFinset_card_of_nodup hnd, hlen]
    have hmap : indices.enum.map Prod.snd = indices := List.enum_map_snd indices
    set out := indices.enum.foldl
      (fun o ki => o.set ki.2 (if signs ki.1 then (1 : ℤ) else -1))
      (List.replicate n (0 : ℤ)) with hout
    have hlen_out : out.length = n := by
      rw [hout, foldl_set_pairs_length (fun k => if signs k then (1 : ℤ) else -1)]
      exact List.length_replicate n 0
    have hval : ∀ j, j < n →
        (j ∈ indices → out.getD j 0 = 1 ∨ out.getD j 0 = -1) ∧
        (j ∉ indices → out.getD j 0 = 0) := by
      intro j hj
      constructor
      · intro hjm
        obtain ⟨k, hk⟩ := foldl_set_pairs_getD_mem
          (fun k => if signs k then (1 : ℤ) else -1) indices.enum
          (List.replicate n (0 : ℤ)) j (by rwa [hmap]) (by rwa [hmap])
          (by simpa using hj)
        rw [hout, hk]
        rcases Bool.eq_false_or_eq_true (signs k) with hs | hs <;> simp [hs]
      · intro hjm
        rw [hout, foldl_set_pairs_getD_not_mem
          (fun k => if signs k then (1 : ℤ) else -1) indices.enum
          (List.replicate n (0 : ℤ)) j (by rwa [hmap]) (by simpa using hj)]
        rw [List.getD_eq_getElem _ _ (by simpa using hj)]
        exact List.getElem_replicate _ (by simpa using hj)
    refine ⟨out, ?_, hlen_out, ?_, ?_⟩
    · unfold ternary_sample_vec
      rw [if_neg (by omega), hch]
    · have hfe : ∀ j ∈ List.range n,
          (decide (out.getD j 0 ≠ 0)) = (decide (j ∈ chosen)) := by
        intro j hj
        rw [List.mem_range] at hj
        by_cases hjm : j ∈ indices
        · have hc : j ∈ chosen := (hind_mem j).mp hjm
          rcases (hval j hj).1 hjm with hv | hv <;> rw [hv] <;> simp [hc]
        · have hv := (hval j hj).2 hjm
          have hnc : j ∉ chosen := fun hc => hjm ((hind_mem j).mpr hc)
          rw [hv]
          simp [hnc]
      rw [List.filter_congr hfe]
      exact hind_len
    · intro j hj
      by_cases hjm : j ∈ indices
      · exact Or.inr ((hval j hj).1 hjm)
      · exact Or.inl ((hval j hj).2 hjm)
  · intro h' hcase
    unfold ternary_sample_vec
    rw [if_pos hcase]

/-- C9 at a concrete input: `n = 4`, `h = 2`, draws `[1, 1, 3, 0]`,
alternating sign bits. -/
theorem c9_ternary_sample_witness :
    (1 ≤ 2 ∧ 2 ≤ 4 ∧ (∀ d ∈ [1, 1, 3, 0], d < 4) ∧
      2 ≤ ([1, 1, 3, 0] : List ℕ).toFinset.card) ∧
      ((∃ out, ternary_sample_vec 4 2 [1, 1, 3, 0] (fun k => k % 2 = 0) = some out ∧
        out.length = 4 ∧
        ((List.range 4).filter fun j => decide (out.getD j 0 ≠ 0)).length = 2 ∧
        ∀ j, j < 4 → out.getD j 0 = 0 ∨ out.getD j 0 = 1 ∨ out.getD j 0 = -1) ∧
      ∀ h', h' = 0 ∨ 4 < h' →
        ternary_sample_vec 4 h' [1, 1, 3, 0] (fun k => k % 2 = 0) = none) :=
  ⟨⟨by decide, by decide, by decide, by decide⟩,
    c9_ternary_sample 4 2 [1, 1, 3, 0] (fun k => k % 2 = 0)
      (by decide) (by decide) (by decide) (by decide)⟩

/-- The RLWE accumulator (`RlweCiphertext` rows plus the `is_trivial`
flag) threaded through `pbs` and `blind_rotation`. -/
structure RlweAcc where
  a : List ℕ
  b : List ℕ
  is_trivial : Bool

/-- `monomial_mul` of `src/bool/evaluator.rs` (lines 1723-1751): negacyclic
multiplication of `p_in` by `±X^{mon_exp}` in `Z_Q[X]/(X^{ring_size}+1)`.
Every output position is written exactly once, so the output buffer is
materialised as zeros and overwritten. -/
def monomial_mul (Q : ℕ) (pIn : List ℕ) (monExp : ℕ) (monSign : Bool)
    (ringSize : ℕ) : List ℕ :=
  pIn.enum.foldl
    (fun pOut iv =>
      let toIndex := iv.1 + monExp
      if ringSize ≤ toIndex then
        pOut.set (toIndex - ringSize) (if monSign then Zq.neg Q iv.2 else iv.2)
      else
        pOut.set toIndex (if monSign then iv.2 else Zq.neg Q iv.2))
    (List.replicate ringSize 0)

/-- `lwe_key_switch` of `src/lwe.rs` (lines 46-72): decompose every `aᵢ`
of the input (skipping `b`), FMA each digit against the matching `ksk`
row into `lwe_out`, then add the input's `b` into `out[0]`.  The
decomposer (`decomposer.rs`, not among the sources) is abstract. -/
def lwe_key_switch (Q : ℕ) (decompose : ℕ → List ℕ)
    (lweOut lweIn : List ℕ) (ksk : List (List ℕ)) : List ℕ :=
  let decomposed := (lweIn.drop 1).bind decompose
  let out := (decomposed.zip ksk).foldl
    (fun out dr =>
      List.zipWith (fun o r => Zq.add Q o (Zq.mul Q r dr.1)) out dr.2)
    lweOut
  out.set 0 (Zq.add Q (out.getD 0 0) (lweIn.getD 0 0))

/-- `blind_rotation` of `src/bool/evaluator.rs` (lines 1378-1492), generic
over the accumulator type and the RGSW/automorphism operations
(`rlwe_by_rgsw` and `galois_auto` live in the `rgsw` module, which is not
among the sources).  `gk_to_si` holds the buckets
`[g^0, …, g^{q/2-1}, -g^0, …, -g^{q/2-1}]`.  Note the final `+(g^0)`
sub-step reads `rgsw_ct_lwe_si(gk_to_si[q_by_2][s_index])`. -/
def blind_rotation {T Rgsw AutoKey : Type}
    (rlweByRgsw : T → Rgsw → T) (galoisAuto : T → AutoKey → T)
    (rgswCtLweSi : ℕ → Rgsw) (galoisKeyForAuto : ℤ → AutoKey)
    (g : ℤ) (w q : ℕ) (gkToSi : List (List ℕ)) (acc : T) : T :=
  let _ := w
  let qby2 := q / 2
  let descending := (List.range (qby2 - 1)).reverse.map (· + 1)
  -- -(g^k), k = q/2 - 1 down to 1: external products then σ_g
  let acc := descending.foldl
    (fun acc i =>
      let acc := (gkToSi.getD (qby2 + i) []).foldl
        (fun acc s => rlweByRgsw acc (rgswCtLweSi s)) acc
      galoisAuto acc (galoisKeyForAuto g))
    acc
  -- -(g^0): external products then σ_{-g}
  let acc := (gkToSi.getD qby2 []).foldl
    (fun acc s => rlweByRgsw acc (rgswCtLweSi s)) acc
  let acc := galoisAuto acc (galoisKeyForAuto (-g))
  -- +(g^k), k = q/2 - 1 down to 1: external products then σ_g
  let acc := descending.foldl
    (fun acc i =>
      let acc := (gkToSi.getD i []).foldl
        (fun acc s => rlweByRgsw acc (rgswCtLweSi s)) acc
      galoisAuto acc (galoisKeyForAuto g))
    acc
  -- +(g^0): external products, no trailing automorphism; the RGSW index
  -- is gk_to_si[q_by_2][s_index], as in the source
  (gkToSi.getD 0 []).foldl
    (fun acc s => rlweByRgsw acc (rgswCtLweSi ((gkToSi.getD qby2 []).getD s 0)))
    acc

/-- The `PbsInfo` data consumed by `pbs` (trait `PbsInfo`,
`src/bool/evaluator.rs` lines 106-138, backed by `BoolPbsInfo`). -/
structure PbsInfo where
  rlwe_q : ℕ
  lwe_q : ℕ
  br_q : ℕ
  rlwe_n : ℕ
  lwe_n : ℕ
  embedding_factor : ℕ
  g : ℕ
  g_k_dlog_map : List ℕ
  nand_test_vec : List ℕ
  rlwe_qby4 : ℕ

/-- `pbs` of `src/bool/evaluator.rs` (lines 1498-1686): mod-down
`Q → Q_ks`, key switch to the LWE secret, odd mod-down `Q_ks → q` with
dlog bucketing, seed the trivial accumulator with the monomial-multiplied
test vector (embedding by `f` when `f > 1`), blind-rotate, and
sample-extract at index 0. -/
def pbs {Rgsw AutoKey : Type}
    (rlweByRgsw : RlweAcc → Rgsw → RlweAcc)
    (galoisAuto : RlweAcc → AutoKey → RlweAcc)
    (rgswCtLweSi : ℕ → Rgsw) (galoisKeyForAuto : ℤ → AutoKey)
    (lweKsk : List (List ℕ)) (decompose : ℕ → List ℕ)
    (info : PbsInfo) (testVec : List ℕ) (lweIn : List ℕ) : List ℕ :=
  -- moddown Q -> Q_ks
  let lweIn1 := lweIn.map fun v => natRound (v * info.lwe_q) info.rlwe_q
  -- key switch RLWE secret to LWE secret (scratch_lwe_vec zero-filled)
  let scratch := lwe_key_switch info.lwe_q decompose
    (List.replicate (info.lwe_n + 1) 0) lweIn1 lweKsk
  -- odd moddown Q_ks -> q, partitioned by dlog
  let gkSi := (scratch.drop 1).enum.foldl
    (fun gk iv =>
      let odd_v := mod_switch_odd iv.2 info.lwe_q info.br_q
      let k := info.g_k_dlog_map.getD odd_v 0
      gk.set k (gk.getD k [] ++ [iv.1]))
    (List.replicate info.br_q ([] : List ℕ))
  -- handle b and set trivial test RLWE
  let g_times_b := (info.g * mod_switch_odd (scratch.getD 0 0) info.lwe_q
    info.br_q) % info.br_q
  let br_qby2 := info.br_q / 2
  let gbExp := if br_qby2 < g_times_b then g_times_b - br_qby2 else g_times_b
  let gbSign := if br_qby2 < g_times_b then false else true
  let partB :=
    if info.embedding_factor = 1 then
      monomial_mul info.rlwe_q testVec gbExp gbSign br_qby2
    else
      (monomial_mul info.rlwe_q testVec gbExp gbSign br_qby2).enum.foldl
        (fun pb iv => pb.set (info.embedding_factor * iv.1) iv.2)
        (List.replicate info.rlwe_n 0)
  let trivialAcc : RlweAcc := ⟨List.replicate info.rlwe_n 0, partB, true⟩
  -- blind rotate
  let rotated := blind_rotation rlweByRgsw galoisAuto rgswCtLweSi
    galoisKeyForAuto (info.g : ℤ) 1 info.br_q gkSi trivialAcc
  -- sample extract
  sample_extract info.rlwe_q rotated.a rotated.b 0

/-- `BoolEvaluator::nand` (`src/bool/evaluator.rs` lines 1342-1372):
componentwise `c0 + c1 mod Q` (into a zeroed buffer of `c0`'s length),
`+Q/4` into coordinate 0, then `pbs` with the NAND test vector. -/
def nand {Rgsw AutoKey : Type}
    (rlweByRgsw : RlweAcc → Rgsw → RlweAcc)
    (galoisAuto : RlweAcc → AutoKey → RlweAcc)
    (rgswCtLweSi : ℕ → Rgsw) (galoisKeyForAuto : ℤ → AutoKey)
    (lweKsk : List (List ℕ)) (decompose : ℕ → List ℕ)
    (info : PbsInfo) (c0 c1 : List ℕ) : List ℕ :=
  let z := List.zipWith (fun i0 i1 => Zq.add info.rlwe_q i0 i1) c0 c1
  let cOut := z ++ List.replicate (c0.length - z.length) 0
  let cOut := cOut.set 0 (Zq.add info.rlwe_q (cOut.getD 0 0) info.rlwe_qby4)
  pbs rlweByRgsw galoisAuto rgswCtLweSi galoisKeyForAuto lweKsk decompose
    info info.nand_test_vec cOut

/-- C1: for equal-length inputs, `nand` returns exactly the `pbs` output
(with the NAND test vector) of the ciphertext whose coordinate 0 is
`c0[0] + c1[0] + Q/4 mod Q` and whose coordinate `j > 0` is
`c0[j] + c1[j] mod Q`. -/
theorem c1_nand_adds_then_pbs {Rgsw AutoKey : Type}
    (rlweByRgsw : RlweAcc → Rgsw → RlweAcc)
    (galoisAuto : RlweAcc → AutoKey → RlweAcc)
    (rgswCtLweSi : ℕ → Rgsw) (galoisKeyForAuto : ℤ → AutoKey)
    (lweKsk : List (List ℕ)) (decompose : ℕ → List ℕ)
    (info : PbsInfo) (c0 c1 : List ℕ)
    (hlen : c0.length = c1.length) (h0 : 0 < c0.length) :
    nand rlweByRgsw galoisAuto rgswCtLweSi galoisKeyForAuto lweKsk decompose
        info c0 c1 =
      pbs rlweByRgsw galoisAuto rgswCtLweSi galoisKeyForAuto lweKsk decompose
        info info.nand_test_vec
        (List.ofFn fun j : Fin c0.length =>
          if (j : ℕ) = 0 then
            (c0.getD 0 0 + c1.getD 0 0 + info.rlwe_qby4) % info.rlwe_q
          else (c0.getD j 0 + c1.getD j 0) % info.rlwe_q) := by
  have hzlen : (List.zipWith (fun i0 i1 => Zq.add info.rlwe_q i0 i1) c0 c1).length
      = c0.length := by
    rw [List.length_zipWith, ← hlen, Nat.min_self]
  have harg :
      ((List.zipWith (fun i0 i1 => Zq.add info.rlwe_q i0 i1) c0 c1 ++
        List.replicate (c0.length -
          (List.zipWith (fun i0 i1 => Zq.add info.rlwe_q i0 i1) c0 c1).length)
          0).set 0
        (Zq.add info.rlwe_q
          ((List.zipWith (fun i0 i1 => Zq.add info.rlwe_q i0 i1) c0 c1 ++
            List.replicate (c0.length -
              (List.zipWith (fun i0 i1 => Zq.add info.rlwe_q i0 i1) c0
                c1).length) 0).getD 0 0)
          info.rlwe_qby4)) =
      List.ofFn (fun j : Fin c0.length =>
        if (j : ℕ) = 0 then
          (c0.getD 0 0 + c1.getD 0 0 + info.rlwe_qby4) % info.rlwe_q
        else (c0.getD j 0 + c1.getD j 0) % info.rlwe_q) := by
    rw [show c0.length -
      (List.zipWith (fun i0 i1 => Zq.add info.rlwe_q i0 i1) c0 c1).length = 0
      from by omega, List.replicate_zero, List.append_nil]
    set z := List.zipWith (fun i0 i1 => Zq.add info.rlwe_q i0 i1) c0 c1 with hz
    apply List.ext_getElem
    · rw [List.length_set, hzlen, List.length_ofFn]
    · intro j hj1 hj2
      have hjz : j < z.length := by
        rw [List.length_set] at hj1
        exact hj1
      rw [List.getElem_ofFn]
      by_cases hj0 : j = 0
      · subst hj0
        rw [List.getElem_set_self hj1]
        rw [if_pos rfl]
        have hz0 : z.getD 0 0 = (c0.getD 0 0 + c1.getD 0 0) % info.rlwe_q := by
          rw [List.getD_eq_getElem z 0 hjz, List.getD_eq_getElem c0 0 h0,
            List.getD_eq_getElem c1 0 (by omega)]
          simp only [hz]
          rw [List.getElem_zipWith]
          rfl
        rw [hz0]
        unfold Zq.add
        exact (Nat.mod_modEq _ _).add_right _
      · rw [List.getElem_set_ne (fun e => hj0 e.symm) hj1]
        rw [if_neg hj0]
        have hzj : z.get ⟨j, hjz⟩ = (c0.getD j 0 + c1.getD j 0) % info.rlwe_q := by
          rw [List.get_eq_getElem,
            List.getD_eq_getElem c0 0 (show j < c0.length by omega),
            List.getD_eq_getElem c1 0 (show j < c1.length by omega)]
          simp only [hz]
          rw [List.getElem_zipWith]
          rfl
        exact hzj
  exact congrArg (pbs rlweByRgsw galoisAuto rgswCtLweSi galoisKeyForAuto
    lweKsk decompose info info.nand_test_vec) harg

/-- C1 at a concrete input: trivial accumulator operations, `Q = 16`,
`c0 = [1, 2]`, `c1 = [3, 4]`. -/
theorem c1_nand_adds_then_pbs_witness :
    (([1, 2] : List ℕ).length = ([3, 4] : List ℕ).length ∧
        0 < ([1, 2] : List ℕ).length) ∧
      @nand ℕ ℤ (fun acc _ => acc) (fun acc _ => acc)
          (fun si => si) (fun k => k) [[0, 0]] (fun v => [v])
          ⟨16, 8, 4, 2, 1, 1, 3, [0, 0, 1, 1], [7, 9], 4⟩ [1, 2] [3, 4] =
        @pbs ℕ ℤ (fun acc _ => acc) (fun acc _ => acc)
          (fun si => si) (fun k => k) [[0, 0]] (fun v => [v])
          ⟨16, 8, 4, 2, 1, 1, 3, [0, 0, 1, 1], [7, 9], 4⟩ [7, 9]
          (List.ofFn fun j : Fin ([1, 2] : List ℕ).length =>
            if (j : ℕ) = 0 then
              (([1, 2] : List ℕ).getD 0 0 + ([3, 4] : List ℕ).getD 0 0 + 4) % 16
            else (([1, 2] : List ℕ).getD j 0 + ([3, 4] : List ℕ).getD j 0) % 16) :=
  ⟨⟨by decide, by decide⟩,
    @c1_nand_adds_then_pbs ℕ ℤ (fun acc _ => acc)
      (fun acc _ => acc) (fun si => si) (fun k => k) [[0, 0]] (fun v => [v])
      ⟨16, 8, 4, 2, 1, 1, 3, [0, 0, 1, 1], [7, 9], 4⟩ [1, 2] [3, 4]
      (by decide) (by decide)⟩

/-- Operation trace of one blind rotation: external products (with the
RGSW index used) and automorphisms (with the key index used), in order. -/
inductive BrOp where
  | extProd (si : ℕ) : BrOp
  | auto (k : ℤ) : BrOp
  deriving DecidableEq

/-- C2: evaluated at `q = 4`, `g = 3`, buckets
`gk_to_si = [[0], [], [1], []]` (coordinate 0 in the `+g^0` bucket,
coordinate 1 in the `-g^0` bucket), the final `+g^0` sub-step
external-multiplies with the RGSW of secret index
`gk_to_si[q/2][0] = 1`, not with the RGSW of secret index `0` as the
claim (and the spec's algebraic description) require; no automorphism
follows it. -/
theorem c2_blind_rotation_final_substep_uses_translated_index :
    @blind_rotation (List BrOp) ℕ ℤ
        (fun tr si => tr ++ [BrOp.extProd si]) (fun tr k => tr ++ [BrOp.auto k])
        (fun si => si) (fun k => k) 3 1 4 [[0], [], [1], []] [] =
      [BrOp.auto 3, BrOp.extProd 1, BrOp.auto (-3), BrOp.auto 3,
        BrOp.extProd 1] ∧
    ([[0], [], [1], []] : List (List ℕ)).getD 0 [] = [0] ∧
    BrOp.extProd 1 ≠ BrOp.extProd 0 := by
  refine ⟨by decide, by decide, by decide⟩

end PhantomZone
